import Mathlib

/-!
# discordAttachExporter: a verification development of `src/main.go`

The program reads a DiscordChatExporter JSON file, turns the attachments that
pass an extension filter into download items, and downloads them with a
bounded number of goroutines, collecting the failures.

Go strings are modelled as Lean strings, read as lists of code points through
`String.data`.  The characters the program inspects (`.`, `/`, `\`, `%`) are
ASCII, so byte indexing in the source and code point indexing here agree on
valid UTF-8 text.  A run-time panic of the Go program is the value `none`.
Library calls whose result depends on the machine (the clock's zone, the
network, the disk, the scheduler) are parameters of the model.
-/

namespace DiscordAttachExporter

/-! ## Data model (`src/main.go`, lines 24-57) -/

/-- The Go `error` values of this program, identified with their message. -/
abbrev GoError := String

/-- `Configure`: the validated configuration (`parallelDownload` has `min=1`). -/
structure Configure where
  ParallelDownload : Nat
  DownloadExtensions : List String
deriving DecidableEq, Repr

/-- `Attachment` of the exported JSON. -/
structure Attachment where
  FileName : String
  Url : String
deriving DecidableEq, Repr

/-- `User` of the exported JSON. -/
structure User where
  Id : String
  IsBot : Bool
deriving DecidableEq, Repr

/-- `Message` of the exported JSON. -/
structure Message where
  Timestamp : String
  Author : User
  Attachments : List Attachment
deriving DecidableEq, Repr

/-- `ExportedJSON`: the parsed input file. -/
structure ExportedJSON where
  Messages : List Message
deriving DecidableEq, Repr

/-- `DownloadItem`: target file name and source URL. -/
structure DownloadItem where
  FileName : String
  Url : String
deriving DecidableEq, Repr

/-- `FailedDownloadItem`: an item together with the error of its download. -/
structure FailedDownloadItem where
  Error : GoError
  Item : DownloadItem
deriving DecidableEq, Repr

/-- A `time.Time` after `t.In(loc)`, broken down into the calendar fields that
`Strftime` reads.  The year is signed: a timestamp of year 0000 moved to an
earlier zone falls in year -1. -/
structure Time where
  Year : Int
  Month : Nat
  Day : Nat
  Hour : Nat
  Minute : Nat
  Second : Nat
  Nanosecond : Nat
deriving DecidableEq, Repr

/-- What the extraction loop takes from the machine and the Go libraries:
the platform (for `os.IsPathSeparator`), `unicode.ToLower` on code points, and
`time.Parse(time.RFC3339, s)` followed by `In(getCurrentLocation())`, which is
`none` when the parse returns an error. -/
structure Runtime where
  windows : Bool
  toLowerRune : Char → Char
  parseLocal : String → Option Time

/-! ## String helpers of the Go libraries -/

/-- `strings.ToLower`: every code point mapped by `unicode.ToLower`. -/
def ToLower (rt : Runtime) (s : String) : String :=
  ⟨s.data.map rt.toLowerRune⟩

/-- `os.IsPathSeparator`: `/` everywhere, and also `\` on Windows. -/
def IsPathSeparator (rt : Runtime) (c : Char) : Bool :=
  c == '/' || (rt.windows && c == Char.ofNat 92)

/-- The loop of `filepath.Ext`, `i + 1` being the number of positions still to
visit: `for i := len(path) - 1; i >= 0 && !os.IsPathSeparator(path[i]); i--`,
returning `path[i:]` at the first `.` met. -/
def extLoop (rt : Runtime) (path : List Char) : Nat → List Char
  | 0 => []
  | i + 1 =>
    match path[i]? with
    | none => []
    | some c =>
      if IsPathSeparator rt c then []
      else if c = '.' then path.drop i
      else extLoop rt path i

/-- `filepath.Ext`: the suffix beginning at the final dot of the final path
element, or the empty string when there is no dot. -/
def Ext (rt : Runtime) (path : String) : String :=
  ⟨extLoop rt path.data path.data.length⟩

/-- The Go slice expression `s[1:]`, which panics on the empty string. -/
def sliceFrom1 (s : String) : Option String :=
  match s.data with
  | [] => none
  | _ :: rest => some ⟨rest⟩

/-- `fmt.Sprintf("%0" ++ width ++ "d", n)` for a natural number. -/
def pad0 (width n : Nat) : List Char :=
  List.replicate (width - (Nat.repr n).data.length) '0' ++ (Nat.repr n).data

/-- `fmt.Sprintf("%0" ++ width ++ "d", n)` for a signed number: the sign counts
in the width and the zeros follow it. -/
def padInt (width : Nat) (n : Int) : List Char :=
  if n < 0 then '-' :: pad0 (width - 1) n.natAbs else pad0 width n.toNat

/-- One directive of `timeutil.Strftime`, for the numeric directives; the other
directives of the library are never used by this program and produce nothing
here. -/
def directive (t : Time) (c : Char) : List Char :=
  if c = 'Y' then padInt 2 t.Year
  else if c = 'm' then pad0 2 t.Month
  else if c = 'd' then pad0 2 t.Day
  else if c = 'H' then pad0 2 t.Hour
  else if c = 'M' then pad0 2 t.Minute
  else if c = 'S' then pad0 2 t.Second
  else if c = 'f' then pad0 6 (t.Nanosecond / 1000)
  else if c = '%' then ['%']
  else []

/-- `timeutil.Strftime`: a `%` consumes the next character as a directive, any
other character is copied. -/
def Strftime (t : Time) : List Char → List Char
  | [] => []
  | c :: rest =>
    if c = '%' then
      match rest with
      | [] => []
      | d :: rest' => directive t d ++ Strftime t rest'
    else c :: Strftime t rest

/-! ## Functions of `src/main.go` -/

/-- `containsIgnoreCase` (lines 119-127). -/
def containsIgnoreCase (rt : Runtime) (array : List String) (value : String) : Bool :=
  match array with
  | [] => false
  | v :: rest =>
    if ToLower rt v = ToLower rt value then true
    else containsIgnoreCase rt rest value

/-- `formatDateTimeVRCStyle` (lines 129-134): the format string of the source,
cut to the length of `"2020-04-01_22-54-21.971"`.  The formatted string is never
shorter than that (`strftime_length`), so the slice cannot panic. -/
def formatDateTimeVRCStyle (t : Time) : String :=
  ⟨(Strftime t "%Y-%m-%d_%H-%m-%S.%f".data).take "2020-04-01_22-54-21.971".data.length⟩

/-- The local `download` flag of the attachment loop (lines 201-204).  The
right operand of `||` is evaluated only for a non-empty list, and its slice
`filepath.Ext(attachment.FileName)[1:]` panics when `Ext` is empty. -/
def downloadFlag (rt : Runtime) (c : Configure) (attachment : Attachment) : Option Bool :=
  if c.DownloadExtensions.length = 0 then some true
  else
    match sliceFrom1 (Ext rt attachment.FileName) with
    | none => none
    | some ext => some (containsIgnoreCase rt c.DownloadExtensions ext)

/-- The item built at lines 210-219:
`fmt.Sprintf("discord_%v_%v_%v", formatDateTimeVRCStyle(t), message.Author.Id,
attachment.FileName)` and the attachment's URL. -/
def makeItem (t : Time) (message : Message) (attachment : Attachment) : DownloadItem :=
  { FileName := "discord_" ++ formatDateTimeVRCStyle t ++ "_" ++ message.Author.Id
      ++ "_" ++ attachment.FileName
    Url := attachment.Url }

/-- The inner loop over `message.Attachments` (lines 200-224), threading
`items`; note the three `append` statements of lines 221-223. -/
def attachmentLoop (rt : Runtime) (c : Configure) (t : Time) (message : Message) :
    List Attachment → List DownloadItem → Option (List DownloadItem)
  | [], items => some items
  | attachment :: rest, items =>
    match downloadFlag rt c attachment with
    | none => none
    | some false => attachmentLoop rt c t message rest items
    | some true =>
      let item := makeItem t message attachment
      attachmentLoop rt c t message rest (((items ++ [item]) ++ [item]) ++ [item])

/-- The outer loop over `json.Messages` (lines 180-225): a message whose
timestamp does not parse is skipped by `continue`. -/
def messageLoop (rt : Runtime) (c : Configure) :
    List Message → List DownloadItem → Option (List DownloadItem)
  | [], items => some items
  | message :: rest, items =>
    match rt.parseLocal message.Timestamp with
    | none => messageLoop rt c rest items
    | some t =>
      match attachmentLoop rt c t message message.Attachments items with
      | none => none
      | some items' => messageLoop rt c rest items'

/-- The extraction part of `main` (lines 178-225), starting from
`items := []DownloadItem{}`. -/
def extractItems (rt : Runtime) (c : Configure) (json : ExportedJSON) :
    Option (List DownloadItem) :=
  messageLoop rt c json.Messages []

/-! ## Sample inputs -/

/-- The values of `unicode.ToLower` on the code points below U+0100: the letters
`A`-`Z` and U+00C0-U+00DE except the multiplication sign U+00D7 move up by 32.
Code points from U+0100 on are left as they are, which is not what Go does for
the letters among them. -/
def latin1ToLower (c : Char) : Char :=
  if (65 ≤ c.toNat ∧ c.toNat ≤ 90) ∨ (192 ≤ c.toNat ∧ c.toNat ≤ 222 ∧ c.toNat ≠ 215) then
    Char.ofNat (c.toNat + 32)
  else c

/-- A runtime in a UTC zone on a Unix machine, lower-casing as Go does below
U+0100 and parsing the one timestamp used in the examples. -/
def sampleRuntime : Runtime :=
  { windows := false
    toLowerRune := latin1ToLower
    parseLocal := fun s =>
      if s = "2020-04-01T22:54:21Z" then some ⟨2020, 4, 1, 22, 54, 21, 0⟩ else none }

/-- The instant `2020-04-01T22:54:21Z` in a UTC local zone. -/
def sampleTime : Time := ⟨2020, 4, 1, 22, 54, 21, 0⟩

/-- A message by author `42` at `2020-04-01T22:54:21Z` with the given attachment
file names. -/
def sampleMessage (names : List String) : Message :=
  { Timestamp := "2020-04-01T22:54:21Z"
    Author := ⟨"42", false⟩
    Attachments := names.map fun n => ⟨n, "https://cdn.example/" ++ n⟩ }

/-- The final path element of a file name in the spec's words: what follows the
last path separator. -/
def specFinalElement (rt : Runtime) (name : String) : List Char :=
  (name.data.reverse.takeWhile fun c => !IsPathSeparator rt c).reverse

/-- The extension in the spec's words: the substring after the last `.`. -/
def specExtension (name : String) : String :=
  ⟨(name.data.reverse.takeWhile fun c => c != '.').reverse⟩

/-! ## The downloader (`download`, lines 136-159) -/

/-- A response body: the bytes the stream delivers and the error that ends it,
if it does not end by reaching the last byte. -/
structure Body where
  bytes : List Nat
  readError : Option GoError
deriving DecidableEq, Repr

/-- The part of `http.Response` that `download` reads. -/
structure Response where
  StatusCode : Int
  Body : Body
deriving DecidableEq, Repr

/-- The files on disk: path and content. -/
abbrev FileSystem := List (String × List Nat)

/-- The library calls of `download`: `http.Get`, `os.Create` and `io.Copy` to
the created file, the last two transforming the file system. -/
structure World where
  httpGet : String → Except GoError Response
  osCreate : FileSystem → String → Except GoError FileSystem
  ioCopy : FileSystem → String → Body → FileSystem × Option GoError

/-- The error of lines 144-147: `fmt.Errorf("HTTP Status Code is not 200 (%v)",
resp.StatusCode)`. -/
def statusError (code : Int) : GoError :=
  "HTTP Status Code is not 200 (" ++ toString code ++ ")"

/-- `download`: the file system after the call and the returned error (`none`
for `nil`).  The deferred `Close` calls change neither. -/
def download (w : World) (fs : FileSystem) (filepath url : String) :
    FileSystem × Option GoError :=
  match w.httpGet url with
  | .error err => (fs, some err)
  | .ok resp =>
    if resp.StatusCode ≠ 200 then (fs, some (statusError resp.StatusCode))
    else
      match w.osCreate fs filepath with
      | .error err => (fs, some err)
      | .ok out => w.ioCopy out filepath resp.Body

/-- A world whose server answers every request with status 404, and whose disk
creates and writes files without error. -/
def sampleWorld : World :=
  { httpGet := fun _ => .ok ⟨404, ⟨[110, 111], none⟩⟩
    osCreate := fun fs path => .ok ((path, []) :: fs.filter fun f => f.1 != path)
    ioCopy := fun fs path body =>
      ((path, body.bytes) :: fs.filter fun f => f.1 != path, body.readError) }

/-! ## The dispatcher (lines 229-267) as a transition system

One goroutine is started per item; the scheduler chooses which thread moves
next.  A blocked operation (a send on the full channel, a receive on the empty
one) is a step that is not enabled. -/

/-- Where a goroutine of lines 238-255 stands. -/
inductive Phase
  /-- started, before `semaphore <- 1` -/
  | waiting
  /-- token held, inside `download(item.FileName, item.Url)` -/
  | inFlight
  /-- `download` returned this error; before the locked `append` -/
  | recording (err : GoError)
  /-- before `<-semaphore` -/
  | releasing
  /-- token given back; the deferred `wg.Done()` is still to run -/
  | exiting
  /-- returned -/
  | done
deriving DecidableEq, Repr

/-- The shared state of the batch run.  `calls` is a ghost log of the items on
which `download` has been invoked. -/
structure State where
  pending : List DownloadItem
  tasks : List (DownloadItem × Phase)
  semaphore : Nat
  wg : Nat
  failes : List FailedDownloadItem
  calls : List DownloadItem
deriving DecidableEq, Repr

/-- A scheduling choice: the main goroutine runs one iteration of its `range`
loop, or goroutine `i` runs its next operation. -/
inductive Action
  | spawn
  | run (i : Nat)
deriving DecidableEq, Repr

/-- The state at line 235: nothing started, channel empty, no failure. -/
def initState (items : List DownloadItem) : State :=
  { pending := items, tasks := [], semaphore := 0, wg := 0, failes := [], calls := [] }

/-- One iteration of the loop of lines 235-256: `wg.Add(1)` and `go func`. -/
def stepSpawn (s : State) : Option State :=
  match s.pending with
  | [] => none
  | item :: rest =>
    some { s with pending := rest, tasks := s.tasks ++ [(item, Phase.waiting)], wg := s.wg + 1 }

/-- The next operation of goroutine `i`.  The channel has capacity
`parallelDownload`; the append of lines 249-251 is atomic under `failesM`;
`wg.Done()` on a zero counter panics. -/
def stepTask (parallelDownload : Nat) (dl : DownloadItem → Option GoError)
    (s : State) (i : Nat) : Option State :=
  match s.tasks[i]? with
  | none => none
  | some (item, Phase.waiting) =>
    if s.semaphore < parallelDownload then
      some { s with tasks := s.tasks.set i (item, Phase.inFlight), semaphore := s.semaphore + 1 }
    else none
  | some (item, Phase.inFlight) =>
    match dl item with
    | some err =>
      some { s with tasks := s.tasks.set i (item, Phase.recording err),
                    calls := s.calls ++ [item] }
    | none =>
      some { s with tasks := s.tasks.set i (item, Phase.releasing),
                    calls := s.calls ++ [item] }
  | some (item, Phase.recording err) =>
    some { s with tasks := s.tasks.set i (item, Phase.releasing),
                  failes := s.failes ++ [{ Error := err, Item := item }] }
  | some (item, Phase.releasing) =>
    if 0 < s.semaphore then
      some { s with tasks := s.tasks.set i (item, Phase.exiting), semaphore := s.semaphore - 1 }
    else none
  | some (item, Phase.exiting) =>
    if 0 < s.wg then
      some { s with tasks := s.tasks.set i (item, Phase.done), wg := s.wg - 1 }
    else none
  | some (_, Phase.done) => none

/-- One scheduling step; `none` when the chosen thread cannot move. -/
def step (parallelDownload : Nat) (dl : DownloadItem → Option GoError)
    (s : State) : Action → Option State
  | Action.spawn => stepSpawn s
  | Action.run i => stepTask parallelDownload dl s i

/-- A run under a schedule. -/
def runSchedule (parallelDownload : Nat) (dl : DownloadItem → Option GoError) :
    State → List Action → Option State
  | s, [] => some s
  | s, a :: rest =>
    match step parallelDownload dl s a with
    | none => none
    | some s' => runSchedule parallelDownload dl s' rest

/-- The loop is over and `wg.Wait()` returns. -/
def joined (s : State) : Bool :=
  s.pending.isEmpty && s.wg == 0

/-- Lines 260-261: `failureCnt` and `succeedCnt`. -/
def tally (items : List DownloadItem) (s : State) : Int × Int :=
  let failureCnt : Int := s.failes.length
  let succeedCnt : Int := (items.length : Int) - failureCnt
  (failureCnt, succeedCnt)

/-- Whether a goroutine in this phase holds an admission token. -/
def Phase.holdsToken : Phase → Bool
  | Phase.inFlight => true
  | Phase.recording _ => true
  | Phase.releasing => true
  | _ => false

/-- The number of downloads in flight: goroutines between `semaphore <- 1` and
`<-semaphore`. -/
def inFlightCount (s : State) : Nat :=
  s.tasks.countP fun t => t.2.holdsToken

/-- The failure entries expected of a batch: the items whose download returns
an error, each with that error. -/
def expectedFailures (dl : DownloadItem → Option GoError) (items : List DownloadItem) :
    List FailedDownloadItem :=
  items.filterMap fun item => (dl item).map fun err => { Error := err, Item := item }

/-- A download function failing exactly on URLs that begin with `bad`. -/
def sampleDownload (item : DownloadItem) : Option GoError :=
  if "bad".data <+: item.Url.data then some (statusError 404) else none

/-- Three items, the second of which fails. -/
def sampleItems : List DownloadItem :=
  [⟨"a", "ok/a"⟩, ⟨"b", "bad/b"⟩, ⟨"c", "ok/c"⟩]

/-- How many operations a goroutine in this phase may still perform. -/
def Phase.rank : Phase → Nat
  | Phase.waiting => 5
  | Phase.inFlight => 4
  | Phase.recording _ => 3
  | Phase.releasing => 2
  | Phase.exiting => 1
  | Phase.done => 0

/-- A bound on the number of steps the batch may still take. -/
def stepsLeft (s : State) : Nat :=
  6 * s.pending.length + (s.tasks.map fun t => t.2.rank).sum

/-- Whether `download` has returned in this phase. -/
def Phase.returned : Phase → Bool
  | Phase.waiting => false
  | Phase.inFlight => false
  | _ => true

/-- Whether the goroutine is past the `if err != nil` block. -/
def Phase.settled : Phase → Bool
  | Phase.releasing => true
  | Phase.exiting => true
  | Phase.done => true
  | _ => false

/-- The items of the goroutines whose `download` has returned. -/
def returnedItems (tasks : List (DownloadItem × Phase)) : List DownloadItem :=
  tasks.filterMap fun t => if t.2.returned then some t.1 else none

/-- The failure entries owed by the goroutines past the `if err != nil` block. -/
def settledFailures (dl : DownloadItem → Option GoError)
    (tasks : List (DownloadItem × Phase)) : List FailedDownloadItem :=
  tasks.filterMap fun t =>
    if t.2.settled then (dl t.1).map fun err => { Error := err, Item := t.1 } else none

/-- The invariant of the batch run. -/
structure Inv (items : List DownloadItem) (parallelDownload : Nat)
    (dl : DownloadItem → Option GoError) (s : State) : Prop where
  split : items = s.tasks.map Prod.fst ++ s.pending
  sem : s.semaphore = inFlightCount s
  bound : s.semaphore ≤ parallelDownload
  wg : s.wg = s.tasks.countP fun t => t.2 != Phase.done
  calls : s.calls.Perm (returnedItems s.tasks)
  failes : s.failes.Perm (settledFailures dl s.tasks)
  recorded : ∀ item err, (item, Phase.recording err) ∈ s.tasks → dl item = some err

/-- A schedule for `sampleItems` with two admission tokens that runs the batch
to its end. -/
def sampleSchedule : List Action :=
  [Action.spawn, Action.spawn, Action.run 0, Action.run 1, Action.spawn,
   Action.run 1, Action.run 1, Action.run 1, Action.run 2, Action.run 2,
   Action.run 2, Action.run 2, Action.run 0, Action.run 0, Action.run 0, Action.run 1]

/-- A message whose timestamp is not RFC3339. -/
def badMessage : Message :=
  { Timestamp := "yesterday"
    Author := ⟨"7", false⟩
    Attachments := [⟨"late.jpg", "https://cdn.example/late.jpg"⟩] }

/-! ## The extractor -/

/-- A padded number is at least as wide as asked. -/
theorem pad0_length (w n : Nat) : w ≤ (pad0 w n).length := by
  simp only [pad0, List.length_append, List.length_replicate]
  omega

/-- A padded signed number is at least as wide as asked. -/
theorem padInt_length (w : Nat) (n : Int) : w ≤ (padInt w n).length := by
  unfold padInt
  split
  · have := pad0_length (w - 1) n.natAbs
    simp only [List.length_cons]
    omega
  · exact pad0_length w n.toNat

/-- The slice of `formatDateTimeVRCStyle` is within bounds for every time. -/
theorem strftime_length (t : Time) :
    "2020-04-01_22-54-21.971".data.length
      ≤ (Strftime t "%Y-%m-%d_%H-%m-%S.%f".data).length := by
  have hY := padInt_length 2 t.Year
  have hm := pad0_length 2 t.Month
  have hd := pad0_length 2 t.Day
  have hH := pad0_length 2 t.Hour
  have hS := pad0_length 2 t.Second
  have hf := pad0_length 6 (t.Nanosecond / 1000)
  simp [Strftime, directive]
  omega

theorem messageLoop_append (rt : Runtime) (c : Configure) (A B : List Message) :
    ∀ items, messageLoop rt c (A ++ B) items
      = (messageLoop rt c A items).bind (messageLoop rt c B) := by
  induction A with
  | nil => intro items; simp [messageLoop]
  | cons m A ih =>
    intro items
    simp only [List.cons_append, messageLoop]
    rcases h : rt.parseLocal m.Timestamp with _ | t
    · simpa using ih items
    · rcases h2 : attachmentLoop rt c t m m.Attachments items with _ | items2
      · simp [h2]
      · simpa [h2] using ih items2

theorem messageLoop_skip (rt : Runtime) (c : Configure) (m : Message)
    (h : rt.parseLocal m.Timestamp = none) (B : List Message) (items : List DownloadItem) :
    messageLoop rt c (m :: B) items = messageLoop rt c B items := by
  simp [messageLoop, h]

theorem containsIgnoreCase_iff (rt : Runtime) (array : List String) (value : String) :
    containsIgnoreCase rt array value = true
      ↔ ∃ v ∈ array, ToLower rt v = ToLower rt value := by
  induction array with
  | nil => simp [containsIgnoreCase]
  | cons v rest ih =>
    by_cases h : ToLower rt v = ToLower rt value
    · simp [containsIgnoreCase, h]
    · simp [containsIgnoreCase, h, ih]

theorem mem_takeWhile_split {α : Type} [DecidableEq α] (p : α → Bool) (x : α) :
    ∀ l : List α, x ∈ l.takeWhile p →
      ∃ l1 l2, l = l1 ++ x :: l2 ∧ x ∉ l1 ∧ (∀ y ∈ l1, p y = true) ∧ p x = true := by
  intro l
  induction l with
  | nil => intro h; simp at h
  | cons y l ih =>
    intro h
    rw [List.takeWhile_cons] at h
    by_cases hy : p y = true
    · rw [if_pos hy] at h
      by_cases hxy : x = y
      · subst hxy
        exact ⟨[], l, rfl, by simp, by simp, hy⟩
      · have hx : x ∈ l.takeWhile p := by
          rcases List.mem_cons.mp h with h1 | h1
          · exact absurd h1 hxy
          · exact h1
        obtain ⟨l1, l2, e, hn, ha, hp⟩ := ih hx
        refine ⟨y :: l1, l2, by simp [e], ?_, ?_, hp⟩
        · simp [hxy, hn]
        · intro z hz
          rcases List.mem_cons.mp hz with h1 | h1
          · subst h1; exact hy
          · exact ha z h1
    · rw [if_neg hy] at h
      simp at h

theorem takeWhile_append_stop {α : Type} (q : α → Bool) (x : α) (l2 : List α)
    (hx : q x = false) :
    ∀ l1 : List α, (∀ y ∈ l1, q y = true) → (l1 ++ x :: l2).takeWhile q = l1 := by
  intro l1
  induction l1 with
  | nil => intro _; simp [List.takeWhile_cons, hx]
  | cons y l1 ih =>
    intro h
    have hy : q y = true := h y (by simp)
    have := ih fun z hz => h z (by simp [hz])
    simp [List.takeWhile_cons, hy, this]

theorem extLoop_final_dot (rt : Runtime) (front suf : List Char)
    (hsep : ∀ ch ∈ suf, IsPathSeparator rt ch = false) (hdot : '.' ∉ suf) :
    ∀ k, k ≤ suf.length →
      extLoop rt (front ++ '.' :: suf) (front.length + 1 + k) = '.' :: suf := by
  have hsd : IsPathSeparator rt '.' = false := by
    simp [IsPathSeparator]
  intro k
  induction k with
  | zero =>
    intro _
    have hget : (front ++ '.' :: suf)[front.length]? = some '.' := by
      rw [List.getElem?_append_right (le_refl _)]
      simp
    have e : front.length + 1 + 0 = front.length + 1 := rfl
    rw [e, extLoop, hget]
    simp [hsd]
  | succ k ih =>
    intro hk
    have hlt : k < suf.length := hk
    have hget : (front ++ '.' :: suf)[front.length + 1 + k]? = some suf[k] := by
      rw [List.getElem?_append_right (by omega)]
      have : front.length + 1 + k - front.length = k + 1 := by omega
      rw [this]
      simp [hlt]
    have hmem : suf[k] ∈ suf := List.getElem_mem _
    have h1 := hsep _ hmem
    have h2 : suf[k] ≠ '.' := fun e => hdot (e ▸ hmem)
    have e : front.length + 1 + (k + 1) = (front.length + 1 + k) + 1 := by omega
    rw [e, extLoop, hget]
    simp only [h1, h2, if_false, Bool.false_eq_true]
    exact ih (by omega)

theorem ext_of_dot_in_final_element (rt : Runtime) (name : String)
    (h : '.' ∈ specFinalElement rt name) :
    (Ext rt name).data = '.' :: (specExtension name).data := by
  have h1 : '.' ∈ name.data.reverse.takeWhile fun c => !IsPathSeparator rt c := by
    simpa [specFinalElement] using h
  obtain ⟨l1, l2, e, hn, ha, _⟩ := mem_takeWhile_split _ _ _ h1
  have hname : name.data = l2.reverse ++ '.' :: l1.reverse := by
    have := congrArg List.reverse e
    simpa using this
  have hspec : (specExtension name).data = l1.reverse := by
    simp only [specExtension, e]
    rw [takeWhile_append_stop _ _ _ (by simp) l1]
    intro y hy
    have : y ≠ '.' := fun e2 => hn (e2 ▸ hy)
    simpa using this
  have hlen : name.data.length = l2.reverse.length + 1 + l1.reverse.length := by
    rw [hname]; simp; omega
  rw [hspec]
  simp only [Ext]
  rw [hlen, hname]
  apply extLoop_final_dot
  · intro ch hch
    have := ha ch (by simpa using hch)
    simpa using this
  · simpa using hn
  · exact le_refl _

/-! ## The dispatcher: invariant, progress, termination -/

theorem set_split {α : Type} (x : α) :
    ∀ (l : List α) (i : Nat), l[i]? = some x →
      ∃ front back, l = front ++ x :: back ∧ ∀ y, l.set i y = front ++ y :: back := by
  intro l
  induction l with
  | nil => intro i h; simp at h
  | cons a l ih =>
    intro i h
    cases i with
    | zero =>
      simp at h
      subst h
      exact ⟨[], l, rfl, fun y => rfl⟩
    | succ i =>
      simp at h
      obtain ⟨front, back, e, hs⟩ := ih i h
      refine ⟨a :: front, back, by simp [e], fun y => ?_⟩
      simp [List.set, hs y]

theorem countP_mid {α : Type} (p : α → Bool) (front back : List α) (x : α) :
    (front ++ x :: back).countP p
      = front.countP p + back.countP p + (if p x = true then 1 else 0) := by
  simp only [List.countP_append, List.countP_cons]
  omega

theorem filterMap_mid_none {α β : Type} (g : α → Option β) (front back : List α) (x : α)
    (h : g x = none) :
    (front ++ x :: back).filterMap g = front.filterMap g ++ back.filterMap g := by
  simp [List.filterMap_append, List.filterMap_cons, h]

theorem filterMap_mid_some {α β : Type} (g : α → Option β) (front back : List α) (x : α)
    (b : β) (h : g x = some b) :
    (front ++ x :: back).filterMap g = front.filterMap g ++ b :: back.filterMap g := by
  simp [List.filterMap_append, List.filterMap_cons, h]

theorem perm_log_push {β : Type} (log fl fr : List β) (b : β) (h : log.Perm (fl ++ fr)) :
    (log ++ [b]).Perm (fl ++ b :: fr) := by
  have h1 : (log ++ [b]).Perm (b :: log) := List.perm_append_singleton b log
  have h2 : (b :: log).Perm (b :: (fl ++ fr)) := List.Perm.cons b h
  have h3 : (fl ++ b :: fr).Perm (b :: (fl ++ fr)) := List.perm_middle
  exact (h1.trans h2).trans h3.symm

theorem inv_init (items : List DownloadItem) (parallelDownload : Nat)
    (dl : DownloadItem → Option GoError) :
    Inv items parallelDownload dl (initState items) := by
  constructor <;> simp [initState, inFlightCount, returnedItems, settledFailures]

theorem inv_spawn (items : List DownloadItem) (parallelDownload : Nat)
    (dl : DownloadItem → Option GoError) (s s' : State)
    (hinv : Inv items parallelDownload dl s) (h : stepSpawn s = some s') :
    Inv items parallelDownload dl s' := by
  obtain ⟨pending, tasks, semaphore, wg, failes, calls⟩ := s
  obtain ⟨h1, h2, h3, h4, h5, h6, h7⟩ := hinv
  simp only at h1 h2 h3 h4 h5 h6 h7
  cases pending with
  | nil => simp [stepSpawn] at h
  | cons item rest =>
    simp only [stepSpawn, Option.some.injEq] at h
    subst h
    constructor
    · simp [h1]
    · simp only [inFlightCount] at h2 ⊢
      simp [List.countP_append, Phase.holdsToken, h2]
    · exact h3
    · simp [List.countP_append, h4]
    · simpa [returnedItems, List.filterMap_append, Phase.returned] using h5
    · simpa [settledFailures, List.filterMap_append, Phase.settled] using h6
    · intro it err hmem
      simp only [List.mem_append, List.mem_singleton, Prod.mk.injEq] at hmem
      rcases hmem with hm | ⟨_, hm⟩
      · exact h7 it err hm
      · cases hm

theorem mem_mid_of {α : Type} {front back : List α} {x y z : α}
    (h : z ∈ front ++ y :: back) (hne : z ≠ y) : z ∈ front ++ x :: back := by
  simp only [List.mem_append, List.mem_cons] at h ⊢
  rcases h with h | h | h
  · exact Or.inl h
  · exact absurd h hne
  · exact Or.inr (Or.inr h)

theorem inv_task (items : List DownloadItem) (parallelDownload : Nat)
    (dl : DownloadItem → Option GoError) (s s' : State) (i : Nat)
    (hinv : Inv items parallelDownload dl s)
    (h : stepTask parallelDownload dl s i = some s') :
    Inv items parallelDownload dl s' := by
  obtain ⟨pending, tasks, semaphore, wg, failes, calls⟩ := s
  obtain ⟨h1, h2, h3, h4, h5, h6, h7⟩ := hinv
  simp only [inFlightCount] at h1 h2 h3 h4 h5 h6 h7
  simp only [stepTask] at h
  rcases hget : tasks[i]? with _ | ⟨item, ph⟩
  · simp [hget] at h
  · obtain ⟨front, back, e, hset⟩ := set_split _ _ _ hget
    subst e
    simp only [hget] at h
    cases ph with
    | waiting =>
      simp only at h
      split at h
      · rename_i hlt
        simp only [Option.some.injEq] at h
        subst h
        simp only [hset]
        rw [countP_mid] at h2 h4
        simp only [returnedItems, settledFailures] at h5 h6
        rw [filterMap_mid_none _ _ _ _ (by simp [Phase.returned])] at h5
        rw [filterMap_mid_none _ _ _ _ (by simp [Phase.settled])] at h6
        constructor
        · simpa using h1
        · simp only [inFlightCount]
          rw [countP_mid]
          simp [Phase.holdsToken] at h2 ⊢
          omega
        · simp only; omega
        · simp only
          rw [countP_mid]
          simpa using h4
        · simp only [returnedItems]
          rw [filterMap_mid_none _ _ _ _ (by simp [Phase.returned])]
          exact h5
        · simp only [settledFailures]
          rw [filterMap_mid_none _ _ _ _ (by simp [Phase.settled])]
          exact h6
        · intro it err hmem
          exact h7 it err (mem_mid_of hmem (by simp))
      · simp at h
    | inFlight =>
      simp only at h
      rw [countP_mid] at h2 h4
      simp only [returnedItems, settledFailures] at h5 h6
      rw [filterMap_mid_none _ _ _ _ (by simp [Phase.returned])] at h5
      rw [filterMap_mid_none _ _ _ _ (by simp [Phase.settled])] at h6
      rcases hdl : dl item with _ | err
      · simp only [hdl, Option.some.injEq] at h
        subst h
        simp only [hset]
        constructor
        · simpa using h1
        · simp only [inFlightCount]
          rw [countP_mid]
          simpa [Phase.holdsToken] using h2
        · exact h3
        · simp only
          rw [countP_mid]
          simpa using h4
        · simp only [returnedItems]
          rw [filterMap_mid_some _ _ _ _ item (by simp [Phase.returned])]
          exact perm_log_push _ _ _ _ h5
        · simp only [settledFailures]
          rw [filterMap_mid_none _ _ _ _ (by simp [Phase.settled, hdl])]
          exact h6
        · intro it err hmem
          exact h7 it err (mem_mid_of hmem (by simp))
      · simp only [hdl, Option.some.injEq] at h
        subst h
        simp only [hset]
        constructor
        · simpa using h1
        · simp only [inFlightCount]
          rw [countP_mid]
          simpa [Phase.holdsToken] using h2
        · exact h3
        · simp only
          rw [countP_mid]
          simpa using h4
        · simp only [returnedItems]
          rw [filterMap_mid_some _ _ _ _ item (by simp [Phase.returned])]
          exact perm_log_push _ _ _ _ h5
        · simp only [settledFailures]
          rw [filterMap_mid_none _ _ _ _ (by simp [Phase.settled])]
          exact h6
        · intro it err2 hmem
          by_cases hz : (it, Phase.recording err2) = (item, Phase.recording err)
          · simp only [Prod.mk.injEq, Phase.recording.injEq] at hz
            rw [hz.1, hz.2]; exact hdl
          · exact h7 it err2 (mem_mid_of hmem hz)
    | recording err =>
      simp only [Option.some.injEq] at h
      subst h
      simp only [hset]
      have hdl : dl item = some err := h7 item err (by simp)
      rw [countP_mid] at h2 h4
      simp only [returnedItems, settledFailures] at h5 h6
      rw [filterMap_mid_some _ _ _ _ item (by simp [Phase.returned])] at h5
      rw [filterMap_mid_none _ _ _ _ (by simp [Phase.settled])] at h6
      constructor
      · simpa using h1
      · simp only [inFlightCount]
        rw [countP_mid]
        simpa [Phase.holdsToken] using h2
      · exact h3
      · simp only
        rw [countP_mid]
        simpa using h4
      · simp only [returnedItems]
        rw [filterMap_mid_some _ _ _ _ item (by simp [Phase.returned])]
        exact h5
      · simp only [settledFailures]
        rw [filterMap_mid_some _ _ _ _ { Error := err, Item := item }
          (by simp [Phase.settled, hdl])]
        exact perm_log_push _ _ _ _ h6
      · intro it err2 hmem
        exact h7 it err2 (mem_mid_of hmem (by simp))
    | releasing =>
      simp only at h
      split at h
      · simp only [Option.some.injEq] at h
        subst h
        simp only [hset]
        rw [countP_mid] at h2 h4
        simp only [returnedItems, settledFailures] at h5 h6
        constructor
        · simpa using h1
        · simp only [inFlightCount]
          rw [countP_mid]
          simp [Phase.holdsToken] at h2 ⊢
          omega
        · simp only; omega
        · simp only
          rw [countP_mid]
          simpa using h4
        · simp only [returnedItems]
          rw [filterMap_mid_some _ _ _ _ item (by simp [Phase.returned])]
          rw [filterMap_mid_some _ _ _ _ item (by simp [Phase.returned])] at h5
          exact h5
        · simp only [settledFailures]
          rcases hdl : dl item with _ | err
          · rw [filterMap_mid_none _ _ _ _ (by simp [Phase.settled, hdl])]
            rw [filterMap_mid_none _ _ _ _ (by simp [Phase.settled, hdl])] at h6
            exact h6
          · rw [filterMap_mid_some _ _ _ _ { Error := err, Item := item }
              (by simp [Phase.settled, hdl])]
            rw [filterMap_mid_some _ _ _ _ { Error := err, Item := item }
              (by simp [Phase.settled, hdl])] at h6
            exact h6
        · intro it err hmem
          exact h7 it err (mem_mid_of hmem (by simp))
      · simp at h
    | exiting =>
      simp only at h
      split at h
      · simp only [Option.some.injEq] at h
        subst h
        simp only [hset]
        rw [countP_mid] at h2 h4
        simp only [returnedItems, settledFailures] at h5 h6
        constructor
        · simpa using h1
        · simp only [inFlightCount]
          rw [countP_mid]
          simpa [Phase.holdsToken] using h2
        · exact h3
        · simp only
          rw [countP_mid]
          simp at h4 ⊢
          omega
        · simp only [returnedItems]
          rw [filterMap_mid_some _ _ _ _ item (by simp [Phase.returned])]
          rw [filterMap_mid_some _ _ _ _ item (by simp [Phase.returned])] at h5
          exact h5
        · simp only [settledFailures]
          rcases hdl : dl item with _ | err
          · rw [filterMap_mid_none _ _ _ _ (by simp [Phase.settled, hdl])]
            rw [filterMap_mid_none _ _ _ _ (by simp [Phase.settled, hdl])] at h6
            exact h6
          · rw [filterMap_mid_some _ _ _ _ { Error := err, Item := item }
              (by simp [Phase.settled, hdl])]
            rw [filterMap_mid_some _ _ _ _ { Error := err, Item := item }
              (by simp [Phase.settled, hdl])] at h6
            exact h6
        · intro it err hmem
          exact h7 it err (mem_mid_of hmem (by simp))
      · simp at h
    | done => simp at h

theorem inv_step (items : List DownloadItem) (parallelDownload : Nat)
    (dl : DownloadItem → Option GoError) (s s' : State) (a : Action)
    (hinv : Inv items parallelDownload dl s) (h : step parallelDownload dl s a = some s') :
    Inv items parallelDownload dl s' := by
  cases a with
  | spawn => exact inv_spawn items parallelDownload dl s s' hinv h
  | run i => exact inv_task items parallelDownload dl s s' i hinv h

theorem inv_run (items : List DownloadItem) (parallelDownload : Nat)
    (dl : DownloadItem → Option GoError) (sched : List Action) :
    ∀ s s', Inv items parallelDownload dl s →
      runSchedule parallelDownload dl s sched = some s' → Inv items parallelDownload dl s' := by
  induction sched with
  | nil =>
    intro s s' hinv h
    simp only [runSchedule, Option.some.injEq] at h
    exact h ▸ hinv
  | cons a rest ih =>
    intro s s' hinv h
    simp only [runSchedule] at h
    rcases hs : step parallelDownload dl s a with _ | mid
    · simp [hs] at h
    · simp only [hs] at h
      exact ih mid s' (inv_step items parallelDownload dl s mid a hinv hs) h

theorem inv_reachable (items : List DownloadItem) (parallelDownload : Nat)
    (dl : DownloadItem → Option GoError) (sched : List Action) (s : State)
    (h : runSchedule parallelDownload dl (initState items) sched = some s) :
    Inv items parallelDownload dl s :=
  inv_run items parallelDownload dl sched _ s (inv_init items parallelDownload dl) h

theorem sum_rank_mid (front back : List (DownloadItem × Phase)) (x : DownloadItem × Phase) :
    ((front ++ x :: back).map fun t => t.2.rank).sum
      = (front.map fun t => t.2.rank).sum + (back.map fun t => t.2.rank).sum + x.2.rank := by
  simp only [List.map_append, List.map_cons, List.sum_append, List.sum_cons]
  omega

theorem stepsLeft_decreases (parallelDownload : Nat) (dl : DownloadItem → Option GoError)
    (s s' : State) (a : Action) (h : step parallelDownload dl s a = some s') :
    stepsLeft s' < stepsLeft s := by
  obtain ⟨pending, tasks, semaphore, wg, failes, calls⟩ := s
  cases a with
  | spawn =>
    simp only [step, stepSpawn] at h
    cases pending with
    | nil => simp at h
    | cons item rest =>
      simp only [Option.some.injEq] at h
      subst h
      simp [stepsLeft, Phase.rank]
      omega
  | run i =>
    simp only [step, stepTask] at h
    rcases hget : tasks[i]? with _ | ⟨item, ph⟩
    · simp [hget] at h
    · obtain ⟨front, back, e, hset⟩ := set_split _ _ _ hget
      subst e
      simp only [hget] at h
      cases ph with
      | waiting =>
        simp only at h
        split at h
        · simp only [Option.some.injEq] at h
          subst h
          simp only [stepsLeft, hset]
          rw [sum_rank_mid, sum_rank_mid]
          simp only [Phase.rank]
          omega
        · simp at h
      | inFlight =>
        simp only at h
        rcases hdl : dl item with _ | err
        · simp only [hdl, Option.some.injEq] at h
          subst h
          simp only [stepsLeft, hset]
          rw [sum_rank_mid, sum_rank_mid]
          simp only [Phase.rank]
          omega
        · simp only [hdl, Option.some.injEq] at h
          subst h
          simp only [stepsLeft, hset]
          rw [sum_rank_mid, sum_rank_mid]
          simp only [Phase.rank]
          omega
      | recording err =>
        simp only [Option.some.injEq] at h
        subst h
        simp only [stepsLeft, hset]
        rw [sum_rank_mid, sum_rank_mid]
        simp only [Phase.rank]
        omega
      | releasing =>
        simp only at h
        split at h
        · simp only [Option.some.injEq] at h
          subst h
          simp only [stepsLeft, hset]
          rw [sum_rank_mid, sum_rank_mid]
          simp only [Phase.rank]
          omega
        · simp at h
      | exiting =>
        simp only at h
        split at h
        · simp only [Option.some.injEq] at h
          subst h
          simp only [stepsLeft, hset]
          rw [sum_rank_mid, sum_rank_mid]
          simp only [Phase.rank]
          omega
        · simp at h
      | done => simp at h

theorem schedule_bounded (parallelDownload : Nat) (dl : DownloadItem → Option GoError)
    (sched : List Action) :
    ∀ s s', runSchedule parallelDownload dl s sched = some s' →
      sched.length + stepsLeft s' ≤ stepsLeft s := by
  induction sched with
  | nil =>
    intro s s' h
    simp only [runSchedule, Option.some.injEq] at h
    simp [h]
  | cons a rest ih =>
    intro s s' h
    simp only [runSchedule] at h
    rcases hs : step parallelDownload dl s a with _ | mid
    · simp [hs] at h
    · simp only [hs] at h
      have h1 := ih mid s' h
      have h2 := stepsLeft_decreases parallelDownload dl s mid a hs
      simp only [List.length_cons]
      omega

theorem exists_index_of_mem {α : Type} (x : α) :
    ∀ l : List α, x ∈ l → ∃ i : Nat, l[i]? = some x := by
  intro l hx
  obtain ⟨n, hn, e⟩ := List.getElem_of_mem hx
  exact ⟨n, by simp [List.getElem?_eq_getElem hn, e]⟩

theorem task_enabled_of_holding (parallelDownload : Nat) (dl : DownloadItem → Option GoError)
    (s : State) (item : DownloadItem) (ph : Phase) (hsem : s.semaphore = inFlightCount s)
    (hmem : (item, ph) ∈ s.tasks) (hold : ph.holdsToken = true) :
    ∃ a s', step parallelDownload dl s a = some s' := by
  obtain ⟨i, hi⟩ := exists_index_of_mem _ _ hmem
  have hpos : 0 < s.semaphore := by
    rw [hsem, inFlightCount]
    exact List.countP_pos_iff.mpr ⟨(item, ph), hmem, hold⟩
  refine ⟨Action.run i, ?_⟩
  cases ph with
  | waiting => simp [Phase.holdsToken] at hold
  | inFlight =>
    rcases hdl : dl item with _ | err
    · simp only [step, stepTask, hi, hdl]
      exact ⟨_, rfl⟩
    · simp only [step, stepTask, hi, hdl]
      exact ⟨_, rfl⟩
  | recording err =>
    simp only [step, stepTask, hi]
    exact ⟨_, rfl⟩
  | releasing =>
    simp only [step, stepTask, hi, hpos, if_true]
    exact ⟨_, rfl⟩
  | exiting => simp [Phase.holdsToken] at hold
  | done => simp [Phase.holdsToken] at hold

theorem progress (items : List DownloadItem) (parallelDownload : Nat)
    (dl : DownloadItem → Option GoError) (hcap : 1 ≤ parallelDownload) (s : State)
    (hinv : Inv items parallelDownload dl s) (hj : joined s = false) :
    ∃ a s', step parallelDownload dl s a = some s' := by
  rcases hp : s.pending with _ | ⟨item, rest⟩
  · have hwg : 0 < s.wg := by
      simp [joined, hp] at hj
      omega
    rw [hinv.wg] at hwg
    obtain ⟨⟨item, ph⟩, hmem, hnd⟩ := List.countP_pos_iff.mp hwg
    obtain ⟨i, hi⟩ := exists_index_of_mem _ _ hmem
    cases ph with
    | waiting =>
      by_cases hlt : s.semaphore < parallelDownload
      · refine ⟨Action.run i, ?_⟩
        simp only [step, stepTask, hi, hlt, if_true]
        exact ⟨_, rfl⟩
      · have hpos : 0 < inFlightCount s := by
          rw [← hinv.sem]; omega
        obtain ⟨⟨item2, ph2⟩, hmem2, hold⟩ := List.countP_pos_iff.mp hpos
        exact task_enabled_of_holding parallelDownload dl s item2 ph2 hinv.sem hmem2 hold
    | inFlight =>
      exact task_enabled_of_holding parallelDownload dl s item _ hinv.sem hmem rfl
    | recording err =>
      exact task_enabled_of_holding parallelDownload dl s item _ hinv.sem hmem rfl
    | releasing =>
      exact task_enabled_of_holding parallelDownload dl s item _ hinv.sem hmem rfl
    | exiting =>
      have hwg2 : 0 < s.wg := by rw [hinv.wg]; exact hwg
      refine ⟨Action.run i, ?_⟩
      simp only [step, stepTask, hi, hwg2, if_true]
      exact ⟨_, rfl⟩
    | done => simp at hnd
  · refine ⟨Action.spawn, ?_⟩
    simp only [step, stepSpawn, hp]
    exact ⟨_, rfl⟩

theorem completion (items : List DownloadItem) (parallelDownload : Nat)
    (dl : DownloadItem → Option GoError) (hcap : 1 ≤ parallelDownload) :
    ∀ (n : Nat) (s : State), stepsLeft s ≤ n → Inv items parallelDownload dl s →
      ∃ more final, runSchedule parallelDownload dl s more = some final
        ∧ joined final = true := by
  intro n
  induction n with
  | zero =>
    intro s hn hinv
    by_cases hj : joined s = true
    · exact ⟨[], s, rfl, hj⟩
    · obtain ⟨a, s', hs⟩ := progress items parallelDownload dl hcap s hinv (by simpa using hj)
      have := stepsLeft_decreases parallelDownload dl s s' a hs
      omega
  | succ n ih =>
    intro s hn hinv
    by_cases hj : joined s = true
    · exact ⟨[], s, rfl, hj⟩
    · obtain ⟨a, s', hs⟩ := progress items parallelDownload dl hcap s hinv (by simpa using hj)
      have hlt := stepsLeft_decreases parallelDownload dl s s' a hs
      obtain ⟨more, final, hrun, hfin⟩ :=
        ih s' (by omega) (inv_step items parallelDownload dl s s' a hinv hs)
      exact ⟨a :: more, final, by simp only [runSchedule, hs, hrun], hfin⟩

theorem all_done_of_joined (items : List DownloadItem) (parallelDownload : Nat)
    (dl : DownloadItem → Option GoError) (s : State)
    (hinv : Inv items parallelDownload dl s) (hj : joined s = true) :
    s.pending = [] ∧ ∀ t ∈ s.tasks, t.2 = Phase.done := by
  simp only [joined, Bool.and_eq_true, List.isEmpty_iff, beq_iff_eq] at hj
  refine ⟨hj.1, ?_⟩
  have h0 : s.tasks.countP (fun t => t.2 != Phase.done) = 0 := by
    rw [← hinv.wg]; exact hj.2
  intro t ht
  have := List.countP_eq_zero.mp h0 t ht
  simpa using this

theorem filterMap_head_some {α β : Type} (g : α → Option β) (x : α) (l : List α) (b : β)
    (h : g x = some b) : (x :: l).filterMap g = b :: l.filterMap g := by
  simp [List.filterMap_cons, h]

theorem filterMap_head_none {α β : Type} (g : α → Option β) (x : α) (l : List α)
    (h : g x = none) : (x :: l).filterMap g = l.filterMap g := by
  simp [List.filterMap_cons, h]

theorem returnedItems_all_done :
    ∀ tasks : List (DownloadItem × Phase), (∀ t ∈ tasks, t.2 = Phase.done) →
      returnedItems tasks = tasks.map Prod.fst := by
  intro tasks
  induction tasks with
  | nil => intro _; rfl
  | cons t rest ih =>
    intro h
    have ht : t.2 = Phase.done := h t (by simp)
    have hr := ih fun u hu => h u (by simp [hu])
    rw [returnedItems] at hr ⊢
    rw [filterMap_head_some _ t rest t.1 (by simp [ht, Phase.returned]), hr, List.map_cons]

theorem settledFailures_all_done (dl : DownloadItem → Option GoError) :
    ∀ tasks : List (DownloadItem × Phase), (∀ t ∈ tasks, t.2 = Phase.done) →
      settledFailures dl tasks = expectedFailures dl (tasks.map Prod.fst) := by
  intro tasks
  induction tasks with
  | nil => intro _; rfl
  | cons t rest ih =>
    intro h
    have ht : t.2 = Phase.done := h t (by simp)
    have hr := ih fun u hu => h u (by simp [hu])
    rw [settledFailures] at hr ⊢
    rw [List.map_cons, expectedFailures] at *
    rcases hdl : dl t.1 with _ | err
    · rw [filterMap_head_none _ t rest (by simp [ht, Phase.settled, hdl]),
        filterMap_head_none _ t.1 _ (by simp [hdl])]
      exact hr
    · rw [filterMap_head_some _ t rest (FailedDownloadItem.mk err t.1)
          (by simp [ht, Phase.settled, hdl]),
        filterMap_head_some _ t.1 _ (FailedDownloadItem.mk err t.1) (by simp [hdl]), hr]

theorem expectedFailures_length (dl : DownloadItem → Option GoError)
    (items : List DownloadItem) : (expectedFailures dl items).length ≤ items.length := by
  simp only [expectedFailures]
  exact List.length_filterMap_le _ _

theorem final_logs (items : List DownloadItem) (parallelDownload : Nat)
    (dl : DownloadItem → Option GoError) (s : State)
    (hinv : Inv items parallelDownload dl s) (hj : joined s = true) :
    s.calls.Perm items ∧ s.failes.Perm (expectedFailures dl items) := by
  obtain ⟨hp, hd⟩ := all_done_of_joined items parallelDownload dl s hinv hj
  have hitems : items = s.tasks.map Prod.fst := by
    have := hinv.split
    rw [hp] at this
    simpa using this
  constructor
  · have := hinv.calls
    rw [returnedItems_all_done _ hd, ← hitems] at this
    exact this
  · have := hinv.failes
    rw [settledFailures_all_done dl _ hd, ← hitems] at this
    exact this

theorem attachmentLoop_keeps_all (rt : Runtime) (c : Configure) (t : Time) (message : Message)
    (h : ∀ a, downloadFlag rt c a = some true) :
    ∀ (atts : List Attachment) (acc : List DownloadItem),
      ∃ items, attachmentLoop rt c t message atts acc = some items
        ∧ (∀ x ∈ acc, x ∈ items) ∧ ∀ a ∈ atts, makeItem t message a ∈ items := by
  intro atts
  induction atts with
  | nil => intro acc; exact ⟨acc, rfl, fun x hx => hx, by simp⟩
  | cons a rest ih =>
    intro acc
    obtain ⟨items, e, hacc, hrest⟩ :=
      ih (((acc ++ [makeItem t message a]) ++ [makeItem t message a]) ++ [makeItem t message a])
    refine ⟨items, by simp only [attachmentLoop, h a, e], ?_, ?_⟩
    · intro x hx
      exact hacc x (by simp [hx])
    · intro b hb
      rcases List.mem_cons.mp hb with hb | hb
      · subst hb
        exact hacc _ (by simp)
      · exact hrest b hb

theorem messageLoop_keeps_all (rt : Runtime) (c : Configure)
    (h : ∀ a, downloadFlag rt c a = some true) :
    ∀ (msgs : List Message) (acc : List DownloadItem),
      ∃ items, messageLoop rt c msgs acc = some items
        ∧ (∀ x ∈ acc, x ∈ items)
        ∧ ∀ m ∈ msgs, ∀ t, rt.parseLocal m.Timestamp = some t →
            ∀ a ∈ m.Attachments, makeItem t m a ∈ items := by
  intro msgs
  induction msgs with
  | nil => intro acc; exact ⟨acc, rfl, fun x hx => hx, by simp⟩
  | cons m rest ih =>
    intro acc
    rcases hp : rt.parseLocal m.Timestamp with _ | t
    · obtain ⟨items, e, hacc, hrest⟩ := ih acc
      refine ⟨items, by simp only [messageLoop, hp, e], hacc, ?_⟩
      intro m2 hm2 t2 ht2 a ha
      rcases List.mem_cons.mp hm2 with hm2 | hm2
      · subst hm2
        rw [hp] at ht2
        cases ht2
      · exact hrest m2 hm2 t2 ht2 a ha
    · obtain ⟨mid, e1, hacc1, hatt⟩ := attachmentLoop_keeps_all rt c t m h m.Attachments acc
      obtain ⟨items, e2, hacc2, hrest⟩ := ih mid
      refine ⟨items, by simp only [messageLoop, hp, e1, e2], fun x hx => hacc2 x (hacc1 x hx), ?_⟩
      intro m2 hm2 t2 ht2 a ha
      rcases List.mem_cons.mp hm2 with hm2 | hm2
      · subst hm2
        rw [hp] at ht2
        cases ht2
        exact hacc2 _ (hatt a ha)
      · exact hrest m2 hm2 t2 ht2 a ha

/-- The `download` flag of an attachment whose final path element has a dot,
under a non-empty allow-list. -/
theorem downloadFlag_of_dot (rt : Runtime) (c : Configure)
    (attachment : Attachment) (hne : c.DownloadExtensions ≠ [])
    (hdot : '.' ∈ specFinalElement rt attachment.FileName) :
    ∃ keep, downloadFlag rt c attachment = some keep ∧
      (keep = true ↔ ∃ v ∈ c.DownloadExtensions,
        ToLower rt v = ToLower rt (specExtension attachment.FileName)) := by
  have hext := ext_of_dot_in_final_element rt attachment.FileName hdot
  have hlen : ¬ c.DownloadExtensions.length = 0 := by
    simpa [List.length_eq_zero] using hne
  have hs : sliceFrom1 (Ext rt attachment.FileName)
      = some (specExtension attachment.FileName) := by
    simp [sliceFrom1, hext]
  refine ⟨containsIgnoreCase rt c.DownloadExtensions (specExtension attachment.FileName), ?_, ?_⟩
  · simp [downloadFlag, hlen, hs]
  · exact containsIgnoreCase_iff _ _ _

/-- The inner loop under a non-empty allow-list, on file names with a dot: it
returns, and adds to the items exactly those of the matching attachments. -/
theorem attachmentLoop_filtered (rt : Runtime) (c : Configure) (t : Time) (message : Message)
    (hne : c.DownloadExtensions ≠ []) :
    ∀ atts : List Attachment, (∀ a ∈ atts, '.' ∈ specFinalElement rt a.FileName) →
      ∀ acc : List DownloadItem,
        ∃ items, attachmentLoop rt c t message atts acc = some items ∧
          ∀ item, item ∈ items ↔
            item ∈ acc ∨ ∃ a ∈ atts,
              (∃ v ∈ c.DownloadExtensions,
                ToLower rt v = ToLower rt (specExtension a.FileName))
              ∧ item = makeItem t message a := by
  intro atts
  induction atts with
  | nil =>
    intro _ acc
    exact ⟨acc, rfl, fun item => by simp⟩
  | cons a rest ih =>
    intro hd acc
    have hrest : ∀ b ∈ rest, '.' ∈ specFinalElement rt b.FileName :=
      fun b hb => hd b (List.mem_cons_of_mem _ hb)
    obtain ⟨keep, hflag, hiff⟩ := downloadFlag_of_dot rt c a hne (hd a (List.mem_cons_self _ _))
    cases keep with
    | false =>
      have hno : ¬ ∃ v ∈ c.DownloadExtensions,
          ToLower rt v = ToLower rt (specExtension a.FileName) := by
        intro hm
        have := hiff.mpr hm
        cases this
      obtain ⟨items, e, hmem⟩ := ih hrest acc
      refine ⟨items, by simp only [attachmentLoop, hflag, e], fun item => ?_⟩
      rw [hmem item]
      constructor
      · rintro (h | ⟨b, hb, hm, he⟩)
        · exact Or.inl h
        · exact Or.inr ⟨b, List.mem_cons_of_mem _ hb, hm, he⟩
      · rintro (h | ⟨b, hb, hm, he⟩)
        · exact Or.inl h
        · rcases List.mem_cons.mp hb with hb | hb
          · subst hb
            exact absurd hm hno
          · exact Or.inr ⟨b, hb, hm, he⟩
    | true =>
      have hyes := hiff.mp rfl
      obtain ⟨items, e, hmem⟩ := ih hrest
        (((acc ++ [makeItem t message a]) ++ [makeItem t message a]) ++ [makeItem t message a])
      refine ⟨items, by simp only [attachmentLoop, hflag, e], fun item => ?_⟩
      rw [hmem item]
      constructor
      · rintro (h | ⟨b, hb, hm, he⟩)
        · simp only [List.mem_append, List.mem_singleton] at h
          rcases h with ((h | h) | h) | h
          · exact Or.inl h
          · exact Or.inr ⟨a, List.mem_cons_self _ _, hyes, h⟩
          · exact Or.inr ⟨a, List.mem_cons_self _ _, hyes, h⟩
          · exact Or.inr ⟨a, List.mem_cons_self _ _, hyes, h⟩
        · exact Or.inr ⟨b, List.mem_cons_of_mem _ hb, hm, he⟩
      · rintro (h | ⟨b, hb, hm, he⟩)
        · exact Or.inl (by simp [h])
        · rcases List.mem_cons.mp hb with hb | hb
          · subst hb
            exact Or.inl (by simp [he])
          · exact Or.inr ⟨b, hb, hm, he⟩

/-- The outer loop under a non-empty allow-list, on file names with a dot: it
returns, and adds to the items exactly those of the matching attachments of the
messages whose timestamp parses. -/
theorem messageLoop_filtered (rt : Runtime) (c : Configure) (hne : c.DownloadExtensions ≠ []) :
    ∀ msgs : List Message,
      (∀ m ∈ msgs, ∀ t, rt.parseLocal m.Timestamp = some t →
        ∀ a ∈ m.Attachments, '.' ∈ specFinalElement rt a.FileName) →
      ∀ acc : List DownloadItem,
        ∃ items, messageLoop rt c msgs acc = some items ∧
          ∀ item, item ∈ items ↔
            item ∈ acc ∨ ∃ m ∈ msgs, ∃ t, rt.parseLocal m.Timestamp = some t ∧
              ∃ a ∈ m.Attachments,
                (∃ v ∈ c.DownloadExtensions,
                  ToLower rt v = ToLower rt (specExtension a.FileName))
                ∧ item = makeItem t m a := by
  intro msgs
  induction msgs with
  | nil =>
    intro _ acc
    exact ⟨acc, rfl, fun item => by simp⟩
  | cons m rest ih =>
    intro hd acc
    have hrest : ∀ m2 ∈ rest, ∀ t, rt.parseLocal m2.Timestamp = some t →
        ∀ a ∈ m2.Attachments, '.' ∈ specFinalElement rt a.FileName :=
      fun m2 hm2 => hd m2 (List.mem_cons_of_mem _ hm2)
    rcases hp : rt.parseLocal m.Timestamp with _ | t
    · obtain ⟨items, e, hmem⟩ := ih hrest acc
      refine ⟨items, by simp only [messageLoop, hp, e], fun item => ?_⟩
      rw [hmem item]
      constructor
      · rintro (h | ⟨m2, hm2, t2, ht2, rest2⟩)
        · exact Or.inl h
        · exact Or.inr ⟨m2, List.mem_cons_of_mem _ hm2, t2, ht2, rest2⟩
      · rintro (h | ⟨m2, hm2, t2, ht2, rest2⟩)
        · exact Or.inl h
        · rcases List.mem_cons.mp hm2 with hm2 | hm2
          · subst hm2
            rw [hp] at ht2
            cases ht2
          · exact Or.inr ⟨m2, hm2, t2, ht2, rest2⟩
    · obtain ⟨mid, e1, hmid⟩ :=
        attachmentLoop_filtered rt c t m hne m.Attachments
          (hd m (List.mem_cons_self _ _) t hp) acc
      obtain ⟨items, e2, hmem⟩ := ih hrest mid
      refine ⟨items, by simp only [messageLoop, hp, e1, e2], fun item => ?_⟩
      rw [hmem item, hmid item]
      constructor
      · rintro ((h | ⟨a, ha, hm, he⟩) | ⟨m2, hm2, t2, ht2, rest2⟩)
        · exact Or.inl h
        · exact Or.inr ⟨m, List.mem_cons_self _ _, t, hp, a, ha, hm, he⟩
        · exact Or.inr ⟨m2, List.mem_cons_of_mem _ hm2, t2, ht2, rest2⟩
      · rintro (h | ⟨m2, hm2, t2, ht2, a, ha, hm, he⟩)
        · exact Or.inl (Or.inl h)
        · rcases List.mem_cons.mp hm2 with hm2 | hm2
          · subst hm2
            rw [hp] at ht2
            cases ht2
            exact Or.inl (Or.inr ⟨a, ha, hm, he⟩)
          · exact Or.inr ⟨m2, hm2, t2, ht2, a, ha, hm, he⟩

/-! ## The claims -/

/-- C1: the specification asks for exactly one item per kept attachment; the extraction
loop appends every kept attachment three times.  With allow-list `jpg` and one
message carrying `photo.jpg` and `notes.txt`, the item list has three entries,
all of them the item of `photo.jpg`. -/
theorem C1_kept_attachment_is_appended_three_times :
    extractItems sampleRuntime ⟨2, ["jpg"]⟩ ⟨[sampleMessage ["photo.jpg", "notes.txt"]]⟩
      = some (List.replicate 3
          (makeItem sampleTime (sampleMessage ["photo.jpg", "notes.txt"])
            ⟨"photo.jpg", "https://cdn.example/photo.jpg"⟩))
    ∧ (extractItems sampleRuntime ⟨2, ["jpg"]⟩
        ⟨[sampleMessage ["photo.jpg", "notes.txt"]]⟩).map List.length ≠ some 1 := by
  decide

/-- C2: the specification asks for hour, minute and second after the date; the format
string of `formatDateTimeVRCStyle` repeats the month directive in the minute
position.  For 2020-04-01 22:54:21 the result is `2020-04-01_22-04-21.000`, which
does not start with `2020-04-01_22-54-21`, and the file name built from it does
not contain that date-time. -/
theorem C2_minute_position_shows_the_month :
    formatDateTimeVRCStyle sampleTime = "2020-04-01_22-04-21.000"
    ∧ ¬ ("2020-04-01_22-54-21".data <+: (formatDateTimeVRCStyle sampleTime).data)
    ∧ (makeItem sampleTime (sampleMessage ["photo.jpg"])
        ⟨"photo.jpg", "https://cdn.example/photo.jpg"⟩).FileName
        = "discord_2020-04-01_22-04-21.000_42_photo.jpg"
    ∧ ¬ ("2020-04-01_22-54-21".data <:+:
        (makeItem sampleTime (sampleMessage ["photo.jpg"])
          ⟨"photo.jpg", "https://cdn.example/photo.jpg"⟩).FileName.data) := by
  decide

/-- C3: with at least one admission token, every run of the dispatcher is
finite and can be continued until `wg.Wait()` returns; and whenever it returns,
`download` has been invoked on the submitted items exactly once each (the call
log is a permutation of the items), the failure list is a permutation of the
items whose download errored, each with its error, and it is no longer than the
item list. -/
theorem C3_every_item_attempted_once_and_failures_collected
    (dl : DownloadItem → Option GoError) (items : List DownloadItem)
    (parallelDownload : Nat) (hcap : 1 ≤ parallelDownload) :
    (∀ sched s, runSchedule parallelDownload dl (initState items) sched = some s →
      sched.length ≤ 6 * items.length
      ∧ ∃ more final, runSchedule parallelDownload dl s more = some final
          ∧ joined final = true)
    ∧ (∀ sched final, runSchedule parallelDownload dl (initState items) sched = some final →
        joined final = true →
        final.calls.Perm items
        ∧ final.failes.Perm (expectedFailures dl items)
        ∧ final.failes.length ≤ items.length) := by
  constructor
  · intro sched s h
    have hinv := inv_reachable items parallelDownload dl sched s h
    constructor
    · have hb := schedule_bounded parallelDownload dl sched _ s h
      have h0 : stepsLeft (initState items) = 6 * items.length := by
        simp [stepsLeft, initState]
      omega
    · exact completion items parallelDownload dl hcap (stepsLeft s) s (le_refl _) hinv
  · intro sched final h hj
    have hinv := inv_reachable items parallelDownload dl sched final h
    obtain ⟨hc, hf⟩ := final_logs items parallelDownload dl final hinv hj
    refine ⟨hc, hf, ?_⟩
    rw [hf.length_eq]
    exact expectedFailures_length dl items

/-- Witness of C3: three items, two tokens, the second download failing. -/
theorem C3_every_item_attempted_once_and_failures_collected_witness :
    1 ≤ 2
    ∧ (∃ final, runSchedule 2 sampleDownload (initState sampleItems) sampleSchedule = some final
        ∧ joined final = true
        ∧ final.calls.Perm sampleItems
        ∧ final.failes.Perm (expectedFailures sampleDownload sampleItems)
        ∧ final.failes.length ≤ sampleItems.length) := by
  refine ⟨by decide, ?_⟩
  have hsome : (runSchedule 2 sampleDownload (initState sampleItems) sampleSchedule).isSome
      = true := by decide
  obtain ⟨final, hfinal⟩ := Option.isSome_iff_exists.mp hsome
  have hj : joined final = true := by
    have : (runSchedule 2 sampleDownload (initState sampleItems) sampleSchedule).map joined
        = some true := by decide
    rw [hfinal] at this
    simpa using this
  exact ⟨final, hfinal, hj,
    (C3_every_item_attempted_once_and_failures_collected sampleDownload sampleItems 2
      (by decide)).2 sampleSchedule final hfinal hj⟩

/-- C4: after the join, `succeedCnt + failureCnt` equals the number of submitted
items, `failureCnt` being the length of the failure list and `succeedCnt` not
negative. -/
theorem C4_tally_adds_up (dl : DownloadItem → Option GoError) (items : List DownloadItem)
    (parallelDownload : Nat) (sched : List Action) (final : State)
    (h : runSchedule parallelDownload dl (initState items) sched = some final)
    (hj : joined final = true) :
    (tally items final).2 + (tally items final).1 = (items.length : Int)
    ∧ (tally items final).1 = (final.failes.length : Int)
    ∧ 0 ≤ (tally items final).2 := by
  have hinv := inv_reachable items parallelDownload dl sched final h
  obtain ⟨_, hf⟩ := final_logs items parallelDownload dl final hinv hj
  have hlen : final.failes.length ≤ items.length := by
    rw [hf.length_eq]
    exact expectedFailures_length dl items
  simp only [tally]
  exact ⟨by omega, trivial, by omega⟩

/-- Witness of C4: the sample batch run to its end. -/
theorem C4_tally_adds_up_witness :
    ∃ final, runSchedule 2 sampleDownload (initState sampleItems) sampleSchedule = some final
      ∧ joined final = true
      ∧ (tally sampleItems final).2 + (tally sampleItems final).1 = (sampleItems.length : Int)
      ∧ (tally sampleItems final).1 = (final.failes.length : Int)
      ∧ 0 ≤ (tally sampleItems final).2 := by
  have hsome : (runSchedule 2 sampleDownload (initState sampleItems) sampleSchedule).isSome
      = true := by decide
  obtain ⟨final, hfinal⟩ := Option.isSome_iff_exists.mp hsome
  have hj : joined final = true := by
    have : (runSchedule 2 sampleDownload (initState sampleItems) sampleSchedule).map joined
        = some true := by decide
    rw [hfinal] at this
    simpa using this
  exact ⟨final, hfinal, hj,
    C4_tally_adds_up sampleDownload sampleItems 2 sampleSchedule final hfinal hj⟩

/-- C5: in every state reachable from the start of the batch, the number of
goroutines between `semaphore <- 1` and `<-semaphore` equals the number of
values in the channel and is at most `parallelDownload`. -/
theorem C5_in_flight_bounded (dl : DownloadItem → Option GoError) (items : List DownloadItem)
    (parallelDownload : Nat) (sched : List Action) (s : State)
    (h : runSchedule parallelDownload dl (initState items) sched = some s) :
    inFlightCount s ≤ parallelDownload ∧ inFlightCount s = s.semaphore := by
  have hinv := inv_reachable items parallelDownload dl sched s h
  exact ⟨hinv.sem ▸ hinv.bound, hinv.sem.symm⟩

/-- Witness of C5: after three goroutines are started and two have acquired,
two downloads are in flight under a ceiling of two, and the third is blocked. -/
theorem C5_in_flight_bounded_witness :
    ∃ s, runSchedule 2 sampleDownload (initState sampleItems)
        [Action.spawn, Action.spawn, Action.spawn, Action.run 0, Action.run 1] = some s
      ∧ step 2 sampleDownload s (Action.run 2) = none
      ∧ inFlightCount s ≤ 2 ∧ inFlightCount s = s.semaphore := by
  have hsome : (runSchedule 2 sampleDownload (initState sampleItems)
      [Action.spawn, Action.spawn, Action.spawn, Action.run 0, Action.run 1]).isSome
      = true := by decide
  obtain ⟨s, hs⟩ := Option.isSome_iff_exists.mp hsome
  have hblocked : step 2 sampleDownload s (Action.run 2) = none := by
    have : (runSchedule 2 sampleDownload (initState sampleItems)
        [Action.spawn, Action.spawn, Action.spawn, Action.run 0, Action.run 1]).bind
        (fun u => step 2 sampleDownload u (Action.run 2)) = none := by decide
    rw [hs] at this
    simpa using this
  exact ⟨s, hs, hblocked, C5_in_flight_bounded sampleDownload sampleItems 2 _ s hs⟩

/-- C6: under a non-empty allow-list, when the file names of the messages whose
timestamp parses all have a dot in their final path element, the extraction
returns without panic, the `download` flag of each such attachment is true
exactly when the substring after its last dot equals some allow-list member
after lower-casing both, and the extracted items are exactly the items of the
attachments for which that holds: an attachment that matches is in the result,
and nothing else is. -/
theorem C6_extension_filter_is_case_insensitive (rt : Runtime) (c : Configure)
    (json : ExportedJSON) (hne : c.DownloadExtensions ≠ [])
    (hdot : ∀ m ∈ json.Messages, ∀ t, rt.parseLocal m.Timestamp = some t →
      ∀ a ∈ m.Attachments, '.' ∈ specFinalElement rt a.FileName) :
    (∀ m ∈ json.Messages, ∀ t, rt.parseLocal m.Timestamp = some t →
      ∀ a ∈ m.Attachments, ∃ keep, downloadFlag rt c a = some keep ∧
        (keep = true ↔ ∃ v ∈ c.DownloadExtensions,
          ToLower rt v = ToLower rt (specExtension a.FileName)))
    ∧ ∃ items, extractItems rt c json = some items ∧
        ∀ item, item ∈ items ↔
          ∃ m ∈ json.Messages, ∃ t, rt.parseLocal m.Timestamp = some t ∧
            ∃ a ∈ m.Attachments,
              (∃ v ∈ c.DownloadExtensions,
                ToLower rt v = ToLower rt (specExtension a.FileName))
              ∧ item = makeItem t m a := by
  constructor
  · intro m hm t ht a ha
    exact downloadFlag_of_dot rt c a hne (hdot m hm t ht a ha)
  · obtain ⟨items, e, hmem⟩ := messageLoop_filtered rt c hne json.Messages hdot []
    refine ⟨items, e, fun item => ?_⟩
    rw [hmem item]
    simp

/-- Witness of C6: the allow-list `png` keeps `x.PNG`, `x.Png` and `x.png` and
drops `x.jpg`; the allow-list `é` keeps `x.É`. -/
theorem C6_extension_filter_is_case_insensitive_witness :
    (Configure.mk 2 ["png"]).DownloadExtensions ≠ []
    ∧ ((∀ m ∈ (ExportedJSON.mk [sampleMessage ["x.PNG", "x.Png", "x.png", "x.jpg"]]).Messages,
        ∀ t, sampleRuntime.parseLocal m.Timestamp = some t →
          ∀ a ∈ m.Attachments, ∃ keep,
            downloadFlag sampleRuntime (Configure.mk 2 ["png"]) a = some keep ∧
            (keep = true ↔ ∃ v ∈ (Configure.mk 2 ["png"]).DownloadExtensions,
              ToLower sampleRuntime v = ToLower sampleRuntime (specExtension a.FileName)))
      ∧ ∃ items, extractItems sampleRuntime (Configure.mk 2 ["png"])
            (ExportedJSON.mk [sampleMessage ["x.PNG", "x.Png", "x.png", "x.jpg"]]) = some items ∧
          ∀ item, item ∈ items ↔
            ∃ m ∈ (ExportedJSON.mk
                [sampleMessage ["x.PNG", "x.Png", "x.png", "x.jpg"]]).Messages,
              ∃ t, sampleRuntime.parseLocal m.Timestamp = some t ∧
                ∃ a ∈ m.Attachments,
                  (∃ v ∈ (Configure.mk 2 ["png"]).DownloadExtensions,
                    ToLower sampleRuntime v
                      = ToLower sampleRuntime (specExtension a.FileName))
                  ∧ item = makeItem t m a)
    ∧ (extractItems sampleRuntime ⟨2, ["png"]⟩
        ⟨[sampleMessage ["x.PNG", "x.Png", "x.png", "x.jpg"]]⟩).map
          (fun items => items.map fun item => item.Url)
        = some (List.replicate 3 "https://cdn.example/x.PNG"
            ++ List.replicate 3 "https://cdn.example/x.Png"
            ++ List.replicate 3 "https://cdn.example/x.png")
    ∧ downloadFlag sampleRuntime ⟨2, ["png"]⟩ ⟨"x.jpg", "u"⟩ = some false
    ∧ downloadFlag sampleRuntime ⟨2, ["é"]⟩ ⟨"x.É", "u"⟩ = some true :=
  ⟨by decide,
    C6_extension_filter_is_case_insensitive sampleRuntime ⟨2, ["png"]⟩
      ⟨[sampleMessage ["x.PNG", "x.Png", "x.png", "x.jpg"]]⟩ (by decide) (by
        intro m hm t _ a ha
        simp only [List.mem_singleton] at hm
        subst hm
        simp only [sampleMessage, List.map_cons, List.map_nil, List.mem_cons,
          List.mem_singleton, List.not_mem_nil, or_false] at ha
        rcases ha with rfl | rfl | rfl | rfl <;> decide),
    by decide, by decide, by decide⟩

/-- C7: with an empty allow-list the `download` flag is true for every
attachment, whatever its file name, the extraction returns, and the result
holds the item of every attachment of every message whose timestamp parses. -/
theorem C7_empty_allow_list_keeps_everything (rt : Runtime) (c : Configure)
    (json : ExportedJSON) (h : c.DownloadExtensions = []) :
    (∀ a, downloadFlag rt c a = some true)
    ∧ ∃ items, extractItems rt c json = some items
        ∧ ∀ m ∈ json.Messages, ∀ t, rt.parseLocal m.Timestamp = some t →
            ∀ a ∈ m.Attachments, makeItem t m a ∈ items := by
  have hflag : ∀ a, downloadFlag rt c a = some true := by
    intro a
    simp [downloadFlag, h]
  refine ⟨hflag, ?_⟩
  obtain ⟨items, e, _, hall⟩ := messageLoop_keeps_all rt c hflag json.Messages []
  exact ⟨items, e, hall⟩

/-- Witness of C7: file names without a dot, with a trailing dot, and empty. -/
theorem C7_empty_allow_list_keeps_everything_witness :
    (Configure.mk 2 []).DownloadExtensions = []
    ∧ ((∀ a, downloadFlag sampleRuntime (Configure.mk 2 []) a = some true)
      ∧ ∃ items, extractItems sampleRuntime (Configure.mk 2 [])
            (ExportedJSON.mk [sampleMessage ["README", "x.", ""]]) = some items
          ∧ ∀ m ∈ (ExportedJSON.mk [sampleMessage ["README", "x.", ""]]).Messages,
              ∀ t, sampleRuntime.parseLocal m.Timestamp = some t →
                ∀ a ∈ m.Attachments, makeItem t m a ∈ items) :=
  ⟨rfl, C7_empty_allow_list_keeps_everything sampleRuntime ⟨2, []⟩
    ⟨[sampleMessage ["README", "x.", ""]]⟩ rfl⟩

/-- C8: the specification asks that a file name without a dot be excluded without
failure under a non-empty allow-list; the slice `filepath.Ext(name)[1:]` of the
empty extension panics instead.  With allow-list `jpg`, the attachment `README`
aborts the extraction, also of the `photo.jpg` that follows it. -/
theorem C8_name_without_dot_panics :
    Ext sampleRuntime "README" = ""
    ∧ downloadFlag sampleRuntime ⟨2, ["jpg"]⟩ ⟨"README", "https://cdn.example/README"⟩ = none
    ∧ extractItems sampleRuntime ⟨2, ["jpg"]⟩ ⟨[sampleMessage ["README", "photo.jpg"]]⟩
        = none := by
  decide

/-- C9: a message whose timestamp does not parse yields no item on its own, and
removing it from anywhere in the message list leaves the result of the
extraction unchanged; in particular the extraction with the message completes
with the same items whenever the extraction without it does. -/
theorem C9_unparseable_message_is_skipped (rt : Runtime) (c : Configure)
    (A B : List Message) (m : Message) (h : rt.parseLocal m.Timestamp = none) :
    extractItems rt c ⟨[m]⟩ = some []
    ∧ extractItems rt c ⟨A ++ [m] ++ B⟩ = extractItems rt c ⟨A ++ B⟩
    ∧ ∀ items, extractItems rt c ⟨A ++ B⟩ = some items →
        extractItems rt c ⟨A ++ [m] ++ B⟩ = some items := by
  have heq : extractItems rt c ⟨A ++ [m] ++ B⟩ = extractItems rt c ⟨A ++ B⟩ := by
    simp only [extractItems, List.append_assoc, List.singleton_append]
    rw [messageLoop_append, messageLoop_append]
    congr 1
    funext items
    exact messageLoop_skip rt c m h B items
  refine ⟨?_, heq, ?_⟩
  · simp [extractItems, messageLoop, h]
  · intro items hitems
    rw [heq, hitems]

/-- Witness of C9: a message stamped `yesterday` between two good messages. -/
theorem C9_unparseable_message_is_skipped_witness :
    sampleRuntime.parseLocal badMessage.Timestamp = none
    ∧ extractItems sampleRuntime ⟨2, ["jpg"]⟩ ⟨[badMessage]⟩ = some []
    ∧ extractItems sampleRuntime ⟨2, ["jpg"]⟩
        ⟨[sampleMessage ["a.jpg"]] ++ [badMessage] ++ [sampleMessage ["b.jpg"]]⟩
      = extractItems sampleRuntime ⟨2, ["jpg"]⟩
        ⟨[sampleMessage ["a.jpg"]] ++ [sampleMessage ["b.jpg"]]⟩
    ∧ ∀ items, extractItems sampleRuntime ⟨2, ["jpg"]⟩
          ⟨[sampleMessage ["a.jpg"]] ++ [sampleMessage ["b.jpg"]]⟩ = some items →
        extractItems sampleRuntime ⟨2, ["jpg"]⟩
          ⟨[sampleMessage ["a.jpg"]] ++ [badMessage] ++ [sampleMessage ["b.jpg"]]⟩
          = some items :=
  ⟨by decide, C9_unparseable_message_is_skipped sampleRuntime ⟨2, ["jpg"]⟩
    [sampleMessage ["a.jpg"]] [sampleMessage ["b.jpg"]] badMessage (by decide)⟩

/-- C10: when the response status is not 200, `download` returns the error
whose message carries the status code and leaves the file system as it was;
and when `download` returns no error, the status was 200, the file was created,
and the copy of the body to it returned no error. -/
theorem C10_download_checks_status_before_creating (w : World) (fs : FileSystem)
    (filepath url : String) :
    (∀ resp, w.httpGet url = .ok resp → resp.StatusCode ≠ 200 →
      download w fs filepath url
        = (fs, some ("HTTP Status Code is not 200 (" ++ toString resp.StatusCode ++ ")")))
    ∧ ((download w fs filepath url).2 = none →
        ∃ resp out, w.httpGet url = .ok resp ∧ resp.StatusCode = 200
          ∧ w.osCreate fs filepath = .ok out
          ∧ w.ioCopy out filepath resp.Body = ((download w fs filepath url).1, none)) := by
  constructor
  · intro resp hget hne
    simp [download, hget, hne, statusError]
  · intro hnone
    simp only [download] at hnone ⊢
    rcases hget : w.httpGet url with err | resp
    · simp [hget] at hnone
    · simp only [hget] at hnone ⊢
      by_cases hst : resp.StatusCode = 200
      · simp only [hst, ne_eq, not_true_eq_false, if_false] at hnone ⊢
        rcases hcr : w.osCreate fs filepath with err | out
        · simp [hcr] at hnone
        · simp only [hcr] at hnone ⊢
          refine ⟨resp, out, rfl, hst, rfl, ?_⟩
          exact Prod.ext rfl hnone
      · simp [hst] at hnone

/-- Witness of C10: a server answering 404 yields the error mentioning 404 and
an unchanged file system. -/
theorem C10_download_checks_status_before_creating_witness :
    download sampleWorld [("old", [1])] "discord_x.jpg" "https://cdn.example/x.jpg"
      = ([("old", [1])], some "HTTP Status Code is not 200 (404)") :=
  (C10_download_checks_status_before_creating sampleWorld [("old", [1])] "discord_x.jpg"
    "https://cdn.example/x.jpg").1 ⟨404, ⟨[110, 111], none⟩⟩ rfl (by decide)

end DiscordAttachExporter
